import Mathlib

/-!
Shallow embedding of `particle_filter.py` (Monte Carlo localization).

Real numbers model Python floats.  Randomness is made explicit: a call site
that draws from `np.random.uniform` or `np.random.normal` instead consumes a
value from a stream passed as a parameter (`rng`/`z` give the raw draws;
a normal draw with deviation `sigma` is modelled as `sigma * z i` where `z i`
is the realized standard-normal value).  Python runtime faults (IndexError on
a list access past the end, ZeroDivisionError) are modelled by `Option`:
`none` is an abnormal termination, `some r` a normal return with value `r`.
-/

namespace ParticleFilter

/-- Pose hypothesis: the dict with keys x, y, theta built throughout the code. -/
structure Particle where
  x : ℝ
  y : ℝ
  theta : ℝ

/-- Map limits list [xmin, xmax, ymin, ymax] used by `generate_particles`. -/
structure MapLimits where
  xmin : ℝ
  xmax : ℝ
  ymin : ℝ
  ymax : ℝ

/-- Model of `np.random.uniform(lo, hi)` applied to a raw draw r from [0, 1). -/
def uniformDraw (lo hi r : ℝ) : ℝ := lo + (hi - lo) * r

/-- Default map bounds [-1, 12, 0, 10] hardcoded in `resample_particles` and `main`. -/
noncomputable def defaultLimits : MapLimits := ⟨-1, 12, 0, 10⟩

/-- Embedding of `generate_particles(num_particles, map_limits)`: particle i
consumes raw uniform draws 3i, 3i+1, 3i+2 of the stream for x, y, theta. -/
noncomputable def generate_particles (num_particles : ℕ) (map_limits : MapLimits)
    (rng : ℕ → ℝ) : List Particle :=
  (List.range num_particles).map fun i =>
    { x := uniformDraw map_limits.xmin map_limits.xmax (rng (3 * i))
      y := uniformDraw map_limits.ymin map_limits.ymax (rng (3 * i + 1))
      theta := uniformDraw (-Real.pi) Real.pi (rng (3 * i + 2)) }

/-- Embedding of `np.mean` on a list (sum divided by length). -/
noncomputable def npMean (l : List ℝ) : ℝ := l.sum / l.length

/-- Embedding of `np.arctan2(y, x)`: the argument of the complex number x + y i,
with the numpy convention arctan2(0, 0) = 0. -/
noncomputable def arctan2 (y x : ℝ) : ℝ := Complex.arg ⟨x, y⟩

/-- Embedding of `mean_pose(particles)`: arithmetic means of x and y, and the
angle of the mean unit vector for theta. -/
noncomputable def mean_pose (particles : List Particle) : ℝ × ℝ × ℝ :=
  let xs := particles.map Particle.x
  let ys := particles.map Particle.y
  let vxs_theta := particles.map fun p => Real.cos p.theta
  let vys_theta := particles.map fun p => Real.sin p.theta
  (npMean xs, npMean ys, arctan2 (npMean vys_theta) (npMean vxs_theta))

/-- Odometry record with keys r1, t, r2. -/
structure Odometry where
  r1 : ℝ
  t : ℝ
  r2 : ℝ

/-- Embedding of `sample_motion(odometry, particles)`.  The noise parameters
are the hardcoded [0.1, 0.1, 0.05, 0.05]; the particle at index i consumes
standard-normal draws z (3i), z (3i+1), z (3i+2) for its rot1, trans, rot2
noise, scaled by the respective standard deviations. -/
noncomputable def sample_motion (odometry : Odometry) (particles : List Particle)
    (z : ℕ → ℝ) : List Particle :=
  let sigma_delta_rot1 := 0.1 * |odometry.r1| + 0.1 * odometry.t
  let sigma_delta_trans := 0.05 * odometry.t + 0.05 * (|odometry.r1| + |odometry.r2|)
  let sigma_delta_rot2 := 0.1 * |odometry.r2| + 0.1 * odometry.t
  particles.mapIdx fun i particle =>
    let noisy_delta_rot1 := odometry.r1 + sigma_delta_rot1 * z (3 * i)
    let noisy_delta_trans := odometry.t + sigma_delta_trans * z (3 * i + 1)
    let noisy_delta_rot2 := odometry.r2 + sigma_delta_rot2 * z (3 * i + 2)
    { x := particle.x + noisy_delta_trans * Real.cos (particle.theta + noisy_delta_rot1)
      y := particle.y + noisy_delta_trans * Real.sin (particle.theta + noisy_delta_rot1)
      theta := particle.theta + noisy_delta_rot1 + noisy_delta_rot2 }

/-- Sensor record: parallel lists under keys id, range, bearing. -/
structure SensorData where
  id : List ℕ
  range : List ℝ
  bearing : List ℝ

/-- Embedding of `scipy.stats.norm.pdf(x, mu, sigma)`. -/
noncomputable def normPdf (x mu sigma : ℝ) : ℝ :=
  Real.exp (-((x - mu) ^ 2) / (2 * sigma ^ 2)) / (sigma * Real.sqrt (2 * Real.pi))

/-- Inner loop of `weight_update` for one particle: runs i over the observed
landmark ids, multiplying the likelihoods into the accumulator.  The three
lists are consumed in lockstep, so a missing range or bearing entry
(IndexError) or an id absent from the landmark dict (KeyError) gives `none`.
The bearing entry is read but unused, as in the code. -/
noncomputable def measLoop (landmarks : ℕ → Option (ℝ × ℝ)) (px py : ℝ) :
    List ℕ → List ℝ → List ℝ → ℝ → Option ℝ
  | [], _, _, acc => some acc
  | lm_id :: ids, meas_range :: ranges, _bearing :: bearings, acc =>
    match landmarks lm_id with
    | some (lx, ly) =>
      measLoop landmarks px py ids ranges bearings
        (acc * normPdf meas_range (Real.sqrt ((lx - px) ^ 2 + (ly - py) ^ 2)) 0.2)
    | none => none
  | _ :: _, _, _, _ => none

/-- Outer loop of `weight_update`: one likelihood per particle, accumulator
starting at 1.0. -/
noncomputable def weightsLoop (sensor_data : SensorData)
    (landmarks : ℕ → Option (ℝ × ℝ)) : List Particle → Option (List ℝ)
  | [] => some []
  | particle :: rest =>
    match measLoop landmarks particle.x particle.y
        sensor_data.id sensor_data.range sensor_data.bearing 1.0 with
    | none => none
    | some w =>
      match weightsLoop sensor_data landmarks rest with
      | none => none
      | some ws => some (w :: ws)

/-- Embedding of `weight_update(sensor_data, particles, landmarks)`. -/
noncomputable def weight_update (sensor_data : SensorData) (particles : List Particle)
    (landmarks : ℕ → Option (ℝ × ℝ)) : Option (List ℝ) :=
  weightsLoop sensor_data landmarks particles

/-- Cumulative sum of the first i+1 entries of a weight list: the value the
scan variable c of `resample_particles` holds when its index variable is i. -/
noncomputable def cumsum (ws : List ℝ) (i : ℕ) : ℝ := (ws.take (i + 1)).sum

/-- Embedding of the inner `while u > c: i = i + 1; c = c + weights[i]` of
`resample_particles`.  Stepping past the end of the weight list is the
IndexError `none`. -/
noncomputable def advanceWhile (ws : List ℝ) (u : ℝ) (c : ℝ) (i : ℕ) : Option (ℝ × ℕ) :=
  if u > c then
    if h : i + 1 < ws.length then
      advanceWhile ws u (c + ws.get ⟨i + 1, h⟩) (i + 1)
    else none
  else some (c, i)
termination_by ws.length - i

/-- Embedding of the outer `for particle in particles` loop of
`resample_particles`: n iterations remain; each runs the inner while loop,
appends `particles[i]` (IndexError `none` when i is past the end), and
raises the threshold u by step. -/
noncomputable def susLoop (particles : List Particle) (ws : List ℝ) (step : ℝ) :
    ℝ → ℝ → ℕ → ℕ → Option (List Particle)
  | _, _, _, 0 => some []
  | u, c, i, n + 1 =>
    match advanceWhile ws u c i with
    | none => none
    | some (c2, i2) =>
      match particles[i2]? with
      | none => none
      | some p =>
        match susLoop particles ws step (u + step) c2 i2 n with
        | none => none
        | some rest => some (p :: rest)

/-- Embedding of `resample_particles(particles, weights)`.  u0 is the single
draw `np.random.uniform(0, step)`, rng the stream consumed by
`generate_particles` in the collapse branch.  A zero particle count in the
non-collapse branch is the ZeroDivisionError of `1.0 / len(particles)`. -/
noncomputable def resample_particles (particles : List Particle) (weights : List ℝ)
    (u0 : ℝ) (rng : ℕ → ℝ) : Option (List Particle) :=
  let normalizer := weights.sum
  if normalizer < 0.01 then
    some (generate_particles weights.length defaultLimits rng)
  else
    let ws := weights.map fun w => w / normalizer
    if particles.length = 0 then none
    else
      match ws[0]? with
      | none => none
      | some c0 => susLoop particles ws (1 / (particles.length : ℝ)) u0 c0 0 particles.length

/-! Basic lemmas. -/

theorem generate_particles_length (n : ℕ) (ml : MapLimits) (rng : ℕ → ℝ) :
    (generate_particles n ml rng).length = n := by
  simp [generate_particles]

theorem generate_particles_mem {n : ℕ} {ml : MapLimits} {rng : ℕ → ℝ} {p : Particle}
    (hp : p ∈ generate_particles n ml rng) :
    ∃ i, i < n ∧
      p = ⟨uniformDraw ml.xmin ml.xmax (rng (3 * i)),
           uniformDraw ml.ymin ml.ymax (rng (3 * i + 1)),
           uniformDraw (-Real.pi) Real.pi (rng (3 * i + 2))⟩ := by
  simp only [generate_particles, List.mem_map, List.mem_range] at hp
  obtain ⟨i, hi, rfl⟩ := hp
  exact ⟨i, hi, rfl⟩

theorem uniformDraw_bounds {lo hi r : ℝ} (h : lo < hi) (h0 : 0 ≤ r) (h1 : r < 1) :
    lo ≤ uniformDraw lo hi r ∧ uniformDraw lo hi r < hi := by
  unfold uniformDraw
  constructor
  · nlinarith
  · nlinarith

theorem resample_collapse (particles : List Particle) (weights : List ℝ) (u0 : ℝ)
    (rng : ℕ → ℝ) (hsum : weights.sum < 0.01) :
    resample_particles particles weights u0 rng =
      some (generate_particles weights.length defaultLimits rng) := by
  unfold resample_particles
  rw [if_pos hsum]

/-! Lemmas about the sensor model. -/

theorem normPdf_nonneg (x mu sigma : ℝ) (hs : 0 ≤ sigma) : 0 ≤ normPdf x mu sigma :=
  div_nonneg (Real.exp_pos _).le (mul_nonneg hs (Real.sqrt_nonneg _))

theorem measLoop_spec (landmarks : ℕ → Option (ℝ × ℝ)) (px py : ℝ) :
    ∀ (ids : List ℕ) (ranges bearings : List ℝ) (acc : ℝ),
      (∀ lm_id ∈ ids, (landmarks lm_id).isSome) →
      ids.length ≤ ranges.length → ids.length ≤ bearings.length → 0 ≤ acc →
      ∃ w, measLoop landmarks px py ids ranges bearings acc = some w ∧ 0 ≤ w := by
  intro ids
  induction ids with
  | nil =>
    intro ranges bearings acc _ _ _ hacc
    exact ⟨acc, rfl, hacc⟩
  | cons lm_id ids ih =>
    intro ranges bearings acc hlm hr hb hacc
    cases ranges with
    | nil => simp at hr
    | cons r rs =>
      cases bearings with
      | nil => simp at hb
      | cons b bs =>
        obtain ⟨⟨lx, ly⟩, hlk⟩ :=
          Option.isSome_iff_exists.mp (hlm lm_id (List.mem_cons_self _ _))
        rw [measLoop, hlk]
        exact ih rs bs _ (fun q hq => hlm q (List.mem_cons_of_mem _ hq))
          (by simpa using hr) (by simpa using hb)
          (mul_nonneg hacc (normPdf_nonneg _ _ _ (by norm_num)))

theorem measLoop_empty (landmarks : ℕ → Option (ℝ × ℝ)) (px py : ℝ)
    (ranges bearings : List ℝ) (acc : ℝ) :
    measLoop landmarks px py [] ranges bearings acc = some acc := by
  rw [measLoop]

theorem weightsLoop_spec (sensor_data : SensorData) (landmarks : ℕ → Option (ℝ × ℝ))
    (hlm : ∀ lm_id ∈ sensor_data.id, (landmarks lm_id).isSome)
    (hr : sensor_data.id.length ≤ sensor_data.range.length)
    (hb : sensor_data.id.length ≤ sensor_data.bearing.length) :
    ∀ particles : List Particle,
      ∃ ws, weightsLoop sensor_data landmarks particles = some ws ∧
        ws.length = particles.length ∧ ∀ w ∈ ws, 0 ≤ w := by
  intro particles
  induction particles with
  | nil => exact ⟨[], rfl, rfl, by simp⟩
  | cons particle rest ih =>
    obtain ⟨ws, hws, hlen, hnn⟩ := ih
    obtain ⟨w, hw, hwnn⟩ := measLoop_spec landmarks particle.x particle.y
      sensor_data.id sensor_data.range sensor_data.bearing 1.0 hlm hr hb (by norm_num)
    refine ⟨w :: ws, ?_, by simp [hlen], ?_⟩
    · rw [weightsLoop, hw, hws]
    · intro q hq
      rcases List.mem_cons.mp hq with h | h
      · exact h ▸ hwnn
      · exact hnn q h

theorem mapIdx_getElem? {α β : Type _} (f : ℕ → α → β) (l : List α) (i : ℕ)
    (hi : i < l.length) :
    (l.mapIdx f)[i]? = some (f i (l.get ⟨i, hi⟩)) := by
  have h2 : i < (l.mapIdx f).length := by simpa [List.length_mapIdx] using hi
  rw [List.getElem?_eq_getElem h2]
  congr 1
  simp [List.get_mapIdx]

/-- C4: weight_update on a sensor record with an empty observation list
returns the weight vector that is 1.0 at every particle. -/
theorem empty_observations_all_ones (sensor_data : SensorData)
    (particles : List Particle) (landmarks : ℕ → Option (ℝ × ℝ))
    (hids : sensor_data.id = []) :
    weight_update sensor_data particles landmarks =
      some (List.replicate particles.length 1.0) := by
  unfold weight_update
  induction particles with
  | nil => rfl
  | cons particle rest ih =>
    rw [weightsLoop, hids, measLoop_empty, ih]
    rfl

/-- Witness for C4 at a concrete record and particle set. -/
theorem empty_observations_all_ones_witness :
    weight_update ⟨[], [], []⟩ [⟨0, 0, 0⟩] (fun _ => none) = some [1.0] :=
  empty_observations_all_ones ⟨[], [], []⟩ [⟨0, 0, 0⟩] (fun _ => none) rfl

/-- C9: on well-formed input (every observed id in the landmark map, range and
bearing lists at least as long as the id list), weight_update returns
normally and every entry of the weight vector is non-negative. -/
theorem weights_nonnegative (sensor_data : SensorData) (particles : List Particle)
    (landmarks : ℕ → Option (ℝ × ℝ))
    (hlm : ∀ lm_id ∈ sensor_data.id, (landmarks lm_id).isSome)
    (hr : sensor_data.id.length ≤ sensor_data.range.length)
    (hb : sensor_data.id.length ≤ sensor_data.bearing.length) :
    ∃ ws, weight_update sensor_data particles landmarks = some ws ∧
      ws.length = particles.length ∧ ∀ w ∈ ws, 0 ≤ w :=
  weightsLoop_spec sensor_data landmarks hlm hr hb particles

/-- Witness for C9 at a concrete observation and particle. -/
theorem weights_nonnegative_witness :
    ∃ ws, weight_update ⟨[1], [5], [0]⟩ [⟨0, 0, 0⟩] (fun _ => some (5, 5)) = some ws ∧
      ws.length = 1 ∧ ∀ w ∈ ws, 0 ≤ w :=
  weights_nonnegative ⟨[1], [5], [0]⟩ [⟨0, 0, 0⟩] (fun _ => some (5, 5))
    (by simp) (by norm_num) (by norm_num)

/-- C2: when the weights sum below 0.01, resample_particles discards its input
and returns freshly generated particles, one per input particle, drawn
uniformly inside the default map bounds [-1, 12, 0, 10]. -/
theorem collapse_fallback_fresh_uniform (particles : List Particle) (weights : List ℝ)
    (u0 : ℝ) (rng : ℕ → ℝ)
    (hlen : weights.length = particles.length)
    (hsum : weights.sum < 0.01)
    (hrng : ∀ m, 0 ≤ rng m ∧ rng m < 1) :
    resample_particles particles weights u0 rng =
      some (generate_particles particles.length defaultLimits rng) ∧
    (generate_particles particles.length defaultLimits rng).length = particles.length ∧
    ∀ p ∈ generate_particles particles.length defaultLimits rng,
      (-1 ≤ p.x ∧ p.x < 12) ∧ (0 ≤ p.y ∧ p.y < 10) ∧
      (-Real.pi ≤ p.theta ∧ p.theta < Real.pi) := by
  refine ⟨by rw [resample_collapse particles weights u0 rng hsum, hlen],
    generate_particles_length _ _ _, ?_⟩
  intro p hp
  obtain ⟨i, _, rfl⟩ := generate_particles_mem hp
  obtain ⟨h0, h1⟩ := hrng (3 * i)
  obtain ⟨h2, h3⟩ := hrng (3 * i + 1)
  obtain ⟨h4, h5⟩ := hrng (3 * i + 2)
  have hpi : -Real.pi < Real.pi := by linarith [Real.pi_pos]
  have b1 := uniformDraw_bounds (show (-1 : ℝ) < 12 by norm_num) h0 h1
  have b2 := uniformDraw_bounds (show (0 : ℝ) < 10 by norm_num) h2 h3
  have b3 := uniformDraw_bounds hpi h4 h5
  exact ⟨⟨b1.1, b1.2⟩, ⟨b2.1, b2.2⟩, ⟨b3.1, b3.2⟩⟩

/-- Witness for C2 at a concrete collapsed weight vector. -/
theorem collapse_fallback_fresh_uniform_witness :
    resample_particles [⟨0, 0, 0⟩] [0] 0 (fun _ => 0) =
      some (generate_particles 1 defaultLimits (fun _ => 0)) ∧
    (generate_particles 1 defaultLimits (fun _ => 0)).length = 1 ∧
    ∀ p ∈ generate_particles 1 defaultLimits (fun _ => 0),
      (-1 ≤ p.x ∧ p.x < 12) ∧ (0 ≤ p.y ∧ p.y < 10) ∧
      (-Real.pi ≤ p.theta ∧ p.theta < Real.pi) :=
  collapse_fallback_fresh_uniform [⟨0, 0, 0⟩] [0] 0 (fun _ => 0)
    (by norm_num) (by norm_num) (fun _ => by norm_num)

/-- C10: the collapse branch sizes its output to the weight vector: whenever
the weights sum below 0.01 the call returns normally with exactly
weights.length fresh particles, whatever the length of the particle list. -/
theorem collapse_sized_to_weights (particles : List Particle) (weights : List ℝ)
    (u0 : ℝ) (rng : ℕ → ℝ) (hsum : weights.sum < 0.01) :
    ∃ res, resample_particles particles weights u0 rng = some res ∧
      res.length = weights.length :=
  ⟨generate_particles weights.length defaultLimits rng,
    resample_collapse particles weights u0 rng hsum,
    generate_particles_length _ _ _⟩

/-- Witness for C10: two particles but a single collapsed weight; the call
returns normally with one fresh particle, not two. -/
theorem collapse_sized_to_weights_witness :
    ∃ res, resample_particles [⟨0, 0, 0⟩, ⟨1, 1, 1⟩] [0] 0 (fun _ => 0) = some res ∧
      res.length = 1 :=
  collapse_sized_to_weights [⟨0, 0, 0⟩, ⟨1, 1, 1⟩] [0] 0 (fun _ => 0) (by norm_num)

/-- C6: sample_motion moves the particle at index i by the noisy odometry
deltas, where each noisy delta is the commanded delta plus the standard
deviation sigma_rot1 = 0.1|r1| + 0.1 t, sigma_trans = 0.05 t + 0.05(|r1|+|r2|),
sigma_rot2 = 0.1|r2| + 0.1 t times the particle's standard-normal draw; the
new heading is theta + noisy_rot1 + noisy_rot2 with no re-normalization into
[-pi, pi], as the concrete run with heading 100 shows. -/
theorem motion_model_formulas (odometry : Odometry) (particles : List Particle)
    (z : ℕ → ℝ) (i : ℕ) (hi : i < particles.length) :
    (∃ p, particles[i]? = some p ∧
      (sample_motion odometry particles z)[i]? = some
        { x := p.x + (odometry.t + (0.05 * odometry.t +
                  0.05 * (|odometry.r1| + |odometry.r2|)) * z (3 * i + 1)) *
                Real.cos (p.theta + (odometry.r1 +
                  (0.1 * |odometry.r1| + 0.1 * odometry.t) * z (3 * i)))
          y := p.y + (odometry.t + (0.05 * odometry.t +
                  0.05 * (|odometry.r1| + |odometry.r2|)) * z (3 * i + 1)) *
                Real.sin (p.theta + (odometry.r1 +
                  (0.1 * |odometry.r1| + 0.1 * odometry.t) * z (3 * i)))
          theta := p.theta + (odometry.r1 +
                  (0.1 * |odometry.r1| + 0.1 * odometry.t) * z (3 * i)) +
                (odometry.r2 + (0.1 * |odometry.r2| + 0.1 * odometry.t) * z (3 * i + 2)) }) ∧
    sample_motion ⟨0, 0, 0⟩ [⟨0, 0, 100⟩] (fun _ => 0) = [⟨0, 0, 100⟩] ∧
    Real.pi < (100 : ℝ) := by
  refine ⟨⟨particles.get ⟨i, hi⟩, List.getElem?_eq_getElem hi, ?_⟩, ?_, ?_⟩
  · unfold sample_motion
    rw [mapIdx_getElem? _ particles i hi]
  · unfold sample_motion
    rw [List.mapIdx_eq_ofFn]
    simp [Particle.mk.injEq]
  · linarith [Real.pi_lt_d2]

/-- Witness for C6 at a concrete particle, odometry and draw stream. -/
theorem motion_model_formulas_witness :
    (∃ p, ([⟨(2 : ℝ), 3, 0⟩] : List Particle)[0]? = some p ∧
      (sample_motion ⟨0, 1, 0⟩ [⟨2, 3, 0⟩] (fun _ => 1))[0]? = some
        { x := p.x + ((1 : ℝ) + (0.05 * 1 + 0.05 * (|(0 : ℝ)| + |(0 : ℝ)|)) * 1) *
                Real.cos (p.theta + ((0 : ℝ) + (0.1 * |(0 : ℝ)| + 0.1 * 1) * 1))
          y := p.y + ((1 : ℝ) + (0.05 * 1 + 0.05 * (|(0 : ℝ)| + |(0 : ℝ)|)) * 1) *
                Real.sin (p.theta + ((0 : ℝ) + (0.1 * |(0 : ℝ)| + 0.1 * 1) * 1))
          theta := p.theta + ((0 : ℝ) + (0.1 * |(0 : ℝ)| + 0.1 * 1) * 1) +
                ((0 : ℝ) + (0.1 * |(0 : ℝ)| + 0.1 * 1) * 1) }) ∧
    sample_motion ⟨0, 0, 0⟩ [⟨0, 0, 100⟩] (fun _ => 0) = [⟨0, 0, 100⟩] ∧
    Real.pi < (100 : ℝ) :=
  motion_model_formulas ⟨0, 1, 0⟩ [⟨2, 3, 0⟩] (fun _ => 1) 0 (by norm_num)

theorem npMean_pair (a b : ℝ) : npMean [a, b] = (a + b) / 2 := by
  simp [npMean]

/-- C5: mean_pose returns the arithmetic means of x and y and the circular
mean atan2(mean sin, mean cos) for the heading; at the two headings
pi - 0.01 and -pi + 0.01 the heading comes out as pi (near the boundary,
not near 0), and at exactly opposed headings the mean unit vector is zero
and the heading is atan2(0, 0) = 0. -/
theorem mean_pose_circular_mean (particles : List Particle) (_h : particles ≠ []) :
    mean_pose particles =
      ((particles.map Particle.x).sum / particles.length,
       (particles.map Particle.y).sum / particles.length,
       arctan2 ((particles.map fun p => Real.sin p.theta).sum / particles.length)
               ((particles.map fun p => Real.cos p.theta).sum / particles.length)) ∧
    (mean_pose [⟨0, 0, Real.pi - 0.01⟩, ⟨0, 0, -Real.pi + 0.01⟩]).2.2 = Real.pi ∧
    3 < |(mean_pose [⟨0, 0, Real.pi - 0.01⟩, ⟨0, 0, -Real.pi + 0.01⟩]).2.2| ∧
    (mean_pose [⟨0, 0, 0⟩, ⟨0, 0, Real.pi⟩]).2.2 = arctan2 0 0 ∧
    arctan2 0 0 = 0 := by
  have hsin : Real.sin (-Real.pi + 0.01) = -Real.sin (Real.pi - 0.01) := by
    rw [show (-Real.pi + 0.01 : ℝ) = -(Real.pi - 0.01) by ring, Real.sin_neg]
  have hcos : Real.cos (-Real.pi + 0.01) = Real.cos (Real.pi - 0.01) := by
    rw [show (-Real.pi + 0.01 : ℝ) = -(Real.pi - 0.01) by ring, Real.cos_neg]
  have hcpos : (0 : ℝ) < Real.cos 0.01 := by
    apply Real.cos_pos_of_mem_Ioo
    constructor
    · nlinarith [Real.pi_gt_three]
    · nlinarith [Real.pi_gt_three]
  have key : (mean_pose [⟨0, 0, Real.pi - 0.01⟩, ⟨0, 0, -Real.pi + 0.01⟩]).2.2 = Real.pi := by
    show arctan2 (npMean [Real.sin (Real.pi - 0.01), Real.sin (-Real.pi + 0.01)])
        (npMean [Real.cos (Real.pi - 0.01), Real.cos (-Real.pi + 0.01)]) = Real.pi
    rw [npMean_pair, npMean_pair, hsin, hcos, Real.cos_pi_sub]
    rw [show (Real.sin (Real.pi - 0.01) + -Real.sin (Real.pi - 0.01)) / 2 = 0 by ring,
      show (-Real.cos 0.01 + -Real.cos 0.01) / 2 = -Real.cos 0.01 by ring]
    show Complex.arg ⟨-Real.cos 0.01, 0⟩ = Real.pi
    rw [show (⟨-Real.cos 0.01, 0⟩ : ℂ) = ((-Real.cos 0.01 : ℝ) : ℂ) from rfl]
    exact Complex.arg_ofReal_of_neg (by linarith)
  have zero2 : arctan2 0 0 = 0 := by
    show Complex.arg ⟨0, 0⟩ = 0
    rw [show (⟨0, 0⟩ : ℂ) = (0 : ℂ) from rfl]
    exact Complex.arg_zero
  refine ⟨?_, key, ?_, ?_, zero2⟩
  · simp [mean_pose, npMean, List.length_map]
  · rw [key, abs_of_pos Real.pi_pos]
    exact Real.pi_gt_three
  · show arctan2 (npMean [Real.sin 0, Real.sin Real.pi])
        (npMean [Real.cos 0, Real.cos Real.pi]) = arctan2 0 0
    rw [npMean_pair, npMean_pair, Real.sin_zero, Real.sin_pi, Real.cos_zero, Real.cos_pi]
    norm_num

/-- Witness for C5 at a concrete non-empty particle set. -/
theorem mean_pose_circular_mean_witness :
    mean_pose [(⟨0, 0, 0⟩ : Particle)] =
      (([(⟨0, 0, 0⟩ : Particle)].map Particle.x).sum / 1,
       ([(⟨0, 0, 0⟩ : Particle)].map Particle.y).sum / 1,
       arctan2 (([(⟨0, 0, 0⟩ : Particle)].map fun p => Real.sin p.theta).sum / 1)
               (([(⟨0, 0, 0⟩ : Particle)].map fun p => Real.cos p.theta).sum / 1)) ∧
    (mean_pose [⟨0, 0, Real.pi - 0.01⟩, ⟨0, 0, -Real.pi + 0.01⟩]).2.2 = Real.pi ∧
    3 < |(mean_pose [⟨0, 0, Real.pi - 0.01⟩, ⟨0, 0, -Real.pi + 0.01⟩]).2.2| ∧
    (mean_pose [⟨0, 0, 0⟩, ⟨0, 0, Real.pi⟩]).2.2 = arctan2 0 0 ∧
    arctan2 0 0 = 0 := by
  have := mean_pose_circular_mean [(⟨0, 0, 0⟩ : Particle)] (by simp)
  simpa using this

/-! Lemmas about the cumulative-weight scan of the resampler. -/

theorem cumsum_succ (ws : List ℝ) (i : ℕ) (h : i + 1 < ws.length) :
    cumsum ws (i + 1) = cumsum ws i + ws.get ⟨i + 1, h⟩ := by
  unfold cumsum
  exact List.sum_take_succ ws (i + 1) h

theorem cumsum_head (ws : List ℝ) (h : ws ≠ []) :
    ws[0]? = some (cumsum ws 0) := by
  cases ws with
  | nil => exact absurd rfl h
  | cons a t => simp [cumsum]

theorem cumsum_last (ws : List ℝ) (h : ws ≠ []) :
    cumsum ws (ws.length - 1) = ws.sum := by
  unfold cumsum
  rw [Nat.sub_add_cancel (List.length_pos.mpr h), List.take_length]

theorem sum_map_div (l : List ℝ) (s : ℝ) : (l.map fun w => w / s).sum = l.sum / s := by
  induction l with
  | nil => simp
  | cons a l ih => simp [ih, add_div]

theorem advanceWhile_spec_aux (ws : List ℝ) (u : ℝ)
    (hend : u ≤ cumsum ws (ws.length - 1)) :
    ∀ d i, ws.length - i = d → i < ws.length →
      ∃ i2, advanceWhile ws u (cumsum ws i) i = some (cumsum ws i2, i2) ∧
        i ≤ i2 ∧ i2 < ws.length ∧ u ≤ cumsum ws i2 ∧
        ∀ j, i ≤ j → j < i2 → cumsum ws j < u := by
  intro d
  induction d with
  | zero => intro i hd hi; omega
  | succ d ih =>
    intro i hd hi
    rw [advanceWhile]
    by_cases hcu : u > cumsum ws i
    · rw [if_pos hcu]
      have hi1 : i + 1 < ws.length := by
        rcases Nat.lt_or_ge (i + 1) ws.length with h | h
        · exact h
        · exfalso
          have hieq : i = ws.length - 1 := by omega
          rw [hieq] at hcu
          linarith
      rw [dif_pos hi1]
      rw [show cumsum ws i + ws.get ⟨i + 1, hi1⟩ = cumsum ws (i + 1) from
        (cumsum_succ ws i hi1).symm]
      obtain ⟨i2, heq, hle, hlt, hu2, hleast⟩ := ih (i + 1) (by omega) hi1
      refine ⟨i2, heq, by omega, hlt, hu2, ?_⟩
      intro j hij hji2
      rcases Nat.eq_or_lt_of_le hij with rfl | hlt2
      · linarith
      · exact hleast j hlt2 hji2
    · rw [if_neg hcu]
      exact ⟨i, rfl, le_refl i, hi, not_lt.mp hcu, fun j h1 h2 => absurd h1 (by omega)⟩

theorem advanceWhile_spec (ws : List ℝ) (u : ℝ) (i : ℕ) (hi : i < ws.length)
    (hend : u ≤ cumsum ws (ws.length - 1)) :
    ∃ i2, advanceWhile ws u (cumsum ws i) i = some (cumsum ws i2, i2) ∧
      i ≤ i2 ∧ i2 < ws.length ∧ u ≤ cumsum ws i2 ∧
      ∀ j, i ≤ j → j < i2 → cumsum ws j < u :=
  advanceWhile_spec_aux ws u hend (ws.length - i) i rfl hi

theorem susLoop_spec (particles : List Particle) (ws : List ℝ) (step : ℝ)
    (hlen : ws.length ≤ particles.length) (hstep : 0 < step) :
    ∀ (n : ℕ) (u : ℝ) (i : ℕ), i < ws.length →
      (∀ j, j < i → cumsum ws j < u) →
      (∀ k : ℕ, k < n → u + k * step ≤ cumsum ws (ws.length - 1)) →
      ∃ res, susLoop particles ws step u (cumsum ws i) i n = some res ∧
        res.length = n ∧
        ∀ k : ℕ, k < n → ∃ p j, res[k]? = some p ∧ particles[j]? = some p ∧
          u + k * step ≤ cumsum ws j ∧
          ∀ j2, j2 < j → cumsum ws j2 < u + k * step := by
  intro n
  induction n with
  | zero =>
    intro u i hi hinv hbound
    exact ⟨[], rfl, rfl, fun k hk => absurd hk (Nat.not_lt_zero k)⟩
  | succ n ih =>
    intro u i hi hinv hbound
    have hend : u ≤ cumsum ws (ws.length - 1) := by
      have h0 := hbound 0 (Nat.succ_pos n)
      simpa using h0
    obtain ⟨i2, heq, hle, hi2, hu2, hleast⟩ := advanceWhile_spec ws u i hi hend
    have hi2p : i2 < particles.length := lt_of_lt_of_le hi2 hlen
    have hip : particles[i2]? = some (particles.get ⟨i2, hi2p⟩) :=
      List.getElem?_eq_getElem hi2p
    have hinv2 : ∀ j, j < i2 → cumsum ws j < u + step := by
      intro j hj
      rcases Nat.lt_or_ge j i with h | h
      · linarith [hinv j h]
      · linarith [hleast j h hj]
    have hbound2 : ∀ k : ℕ, k < n → (u + step) + k * step ≤ cumsum ws (ws.length - 1) := by
      intro k hk
      have h1 := hbound (k + 1) (by omega)
      push_cast at h1 ⊢
      linarith
    obtain ⟨res, hres, hlen2, hspec⟩ := ih (u + step) i2 hi2 hinv2 hbound2
    refine ⟨particles.get ⟨i2, hi2p⟩ :: res, ?_, by simp [hlen2], ?_⟩
    · simp only [susLoop, heq, hip, hres]
    · intro k hk
      cases k with
      | zero =>
        refine ⟨particles.get ⟨i2, hi2p⟩, i2, by simp, hip, by simpa using hu2, ?_⟩
        intro j2 hj2
        have hlt : cumsum ws j2 < u := by
          rcases Nat.lt_or_ge j2 i with h | h
          · exact hinv j2 h
          · exact hleast j2 h hj2
        simpa using hlt
      | succ k =>
        obtain ⟨p, j, hp1, hp2, hp3, hp4⟩ := hspec k (by omega)
        refine ⟨p, j, by simpa using hp1, hp2, ?_, ?_⟩
        · push_cast at hp3 ⊢
          linarith
        · intro j2 hj2
          have h2 := hp4 j2 hj2
          push_cast at h2 ⊢
          linarith

/-- Main lemma for the non-collapse path of the resampler: with the weights
no longer than the particle list, a weight sum at or above the collapse
threshold, and the single offset u0 inside [0, 1/N), the call returns
normally with one output per particle, each a value-copy of the input
particle at the least index whose cumulative normalized weight reaches the
threshold u0 + k/N of output slot k. -/
theorem resample_spec (particles : List Particle) (weights : List ℝ) (u0 : ℝ)
    (rng : ℕ → ℝ)
    (hlen : weights.length ≤ particles.length) (hN : 0 < particles.length)
    (hsum : 0.01 ≤ weights.sum)
    (_hu0 : 0 ≤ u0) (hu1 : u0 < 1 / (particles.length : ℝ)) :
    ∃ res, resample_particles particles weights u0 rng = some res ∧
      res.length = particles.length ∧
      (∀ p ∈ res, p ∈ particles) ∧
      ∀ k : ℕ, k < particles.length → ∃ p j,
        res[k]? = some p ∧ particles[j]? = some p ∧
        u0 + k * (1 / (particles.length : ℝ)) ≤
          cumsum (weights.map fun w => w / weights.sum) j ∧
        ∀ j2, j2 < j → cumsum (weights.map fun w => w / weights.sum) j2 <
          u0 + k * (1 / (particles.length : ℝ)) := by
  have hw0 : weights ≠ [] := by
    intro h
    rw [h] at hsum
    simp at hsum
    linarith
  have hS0 : (0 : ℝ) < weights.sum := by linarith
  set ws : List ℝ := weights.map fun w => w / weights.sum with hws
  have hwslen : ws.length = weights.length := by simp [hws]
  have hwsne : ws ≠ [] := by simp [hws, hw0]
  have hsum1 : ws.sum = 1 := by
    rw [hws, sum_map_div]
    field_simp
  have hNR : (0 : ℝ) < (particles.length : ℝ) := by exact_mod_cast hN
  have hstep : (0 : ℝ) < 1 / (particles.length : ℝ) := by positivity
  have hbound : ∀ k : ℕ, k < particles.length →
      u0 + k * (1 / (particles.length : ℝ)) ≤ cumsum ws (ws.length - 1) := by
    intro k hk
    rw [cumsum_last ws hwsne, hsum1]
    have hk1 : (k : ℝ) + 1 ≤ (particles.length : ℝ) := by exact_mod_cast hk
    have h2 : ((k : ℝ) + 1) * (1 / (particles.length : ℝ)) ≤
        (particles.length : ℝ) * (1 / (particles.length : ℝ)) :=
      mul_le_mul_of_nonneg_right hk1 (le_of_lt hstep)
    have h3 : (particles.length : ℝ) * (1 / (particles.length : ℝ)) = 1 := by
      field_simp
    nlinarith
  have hlen2 : ws.length ≤ particles.length := by rw [hwslen]; exact hlen
  have hws0 : 0 < ws.length := by rw [hwslen]; exact List.length_pos.mpr hw0
  obtain ⟨res, hres, hreslen, hspec⟩ :=
    susLoop_spec particles ws (1 / (particles.length : ℝ)) hlen2 hstep
      particles.length u0 0 hws0 (fun j hj => absurd hj (Nat.not_lt_zero j)) hbound
  refine ⟨res, ?_, hreslen, ?_, hspec⟩
  · unfold resample_particles
    rw [if_neg (not_lt.mpr hsum)]
    rw [if_neg (Nat.pos_iff_ne_zero.mp hN)]
    rw [cumsum_head ws hwsne]
    exact hres
  · intro p hp
    obtain ⟨k, hpk⟩ := List.mem_iff_getElem?.mp hp
    have hk : k < particles.length := by
      rw [← hreslen]
      exact (List.getElem?_eq_some.mp hpk).1
    obtain ⟨p2, j, hk1, hk2, _, _⟩ := hspec k hk
    rw [hpk] at hk1
    cases hk1
    exact List.getElem?_mem hk2

/-- C1: in the non-collapse path the resampler performs systematic
resampling: the weight vector normalized by its sum adds up to 1, and for
every output slot k with threshold u0 + k/N the output particle is the
input particle at the least index whose cumulative normalized weight
reaches that threshold. -/
theorem resample_systematic_selection (particles : List Particle) (weights : List ℝ)
    (u0 : ℝ) (rng : ℕ → ℝ)
    (hlen : weights.length = particles.length) (hN : 0 < particles.length)
    (hsum : 0.01 ≤ weights.sum)
    (hu0 : 0 ≤ u0) (hu1 : u0 < 1 / (particles.length : ℝ)) :
    (weights.map fun w => w / weights.sum).sum = 1 ∧
    ∃ res, resample_particles particles weights u0 rng = some res ∧
      res.length = particles.length ∧
      ∀ k : ℕ, k < particles.length → ∃ p j,
        res[k]? = some p ∧ particles[j]? = some p ∧
        u0 + k * (1 / (particles.length : ℝ)) ≤
          cumsum (weights.map fun w => w / weights.sum) j ∧
        ∀ j2, j2 < j → cumsum (weights.map fun w => w / weights.sum) j2 <
          u0 + k * (1 / (particles.length : ℝ)) := by
  have hS0 : (0 : ℝ) < weights.sum := by linarith
  refine ⟨by rw [sum_map_div]; field_simp, ?_⟩
  obtain ⟨res, h1, h2, _, h4⟩ := resample_spec particles weights u0 rng hlen.le hN hsum hu0 hu1
  exact ⟨res, h1, h2, h4⟩

/-- Witness for C1 at two particles with equal weights and offset 1/4. -/
theorem resample_systematic_selection_witness :
    (([1 / 2, 1 / 2] : List ℝ).map fun w => w / ([1 / 2, 1 / 2] : List ℝ).sum).sum = 1 ∧
    ∃ res, resample_particles [⟨1, 2, 3⟩, ⟨4, 5, 6⟩] [1 / 2, 1 / 2] (1 / 4) (fun _ => 0) =
        some res ∧
      res.length = 2 ∧
      ∀ k : ℕ, k < 2 → ∃ p j,
        res[k]? = some p ∧ ([⟨1, 2, 3⟩, ⟨4, 5, 6⟩] : List Particle)[j]? = some p ∧
        1 / 4 + k * (1 / ((2 : ℕ) : ℝ)) ≤
          cumsum (([1 / 2, 1 / 2] : List ℝ).map fun w => w / ([1 / 2, 1 / 2] : List ℝ).sum) j ∧
        ∀ j2, j2 < j →
          cumsum (([1 / 2, 1 / 2] : List ℝ).map fun w => w / ([1 / 2, 1 / 2] : List ℝ).sum) j2 <
            1 / 4 + k * (1 / ((2 : ℕ) : ℝ)) := by
  have h := resample_systematic_selection [⟨1, 2, 3⟩, ⟨4, 5, 6⟩] [1 / 2, 1 / 2] (1 / 4)
    (fun _ => 0) (by norm_num) (by norm_num) (by norm_num) (by norm_num)
    (by norm_num)
  simpa using h

/-- C7: one output particle per input particle: sample_motion preserves the
particle count, and under the matched-lengths precondition so does
resample_particles, in the collapse path as well as the non-collapse path. -/
theorem cardinality_preserved (particles : List Particle) (weights : List ℝ)
    (odometry : Odometry) (z : ℕ → ℝ) (u0 : ℝ) (rng : ℕ → ℝ)
    (hlen : weights.length = particles.length) (hN : 0 < particles.length)
    (hu0 : 0 ≤ u0) (hu1 : u0 < 1 / (particles.length : ℝ)) :
    (sample_motion odometry particles z).length = particles.length ∧
    ∃ res, resample_particles particles weights u0 rng = some res ∧
      res.length = particles.length := by
  refine ⟨by simp [sample_motion, List.length_mapIdx], ?_⟩
  rcases lt_or_le weights.sum 0.01 with h | h
  · exact ⟨_, resample_collapse _ _ _ _ h, by rw [generate_particles_length, hlen]⟩
  · obtain ⟨res, h1, h2, _, _⟩ := resample_spec particles weights u0 rng hlen.le hN h hu0 hu1
    exact ⟨res, h1, h2⟩

/-- Witness for C7 at a two-particle set. -/
theorem cardinality_preserved_witness :
    (sample_motion ⟨0, 1, 0⟩ [⟨1, 2, 3⟩, ⟨4, 5, 6⟩] (fun _ => 0)).length = 2 ∧
    ∃ res, resample_particles [⟨1, 2, 3⟩, ⟨4, 5, 6⟩] [1 / 2, 1 / 2] (1 / 4) (fun _ => 0) =
        some res ∧ res.length = 2 := by
  have h := cardinality_preserved [⟨1, 2, 3⟩, ⟨4, 5, 6⟩] [1 / 2, 1 / 2] ⟨0, 1, 0⟩
    (fun _ => 0) (1 / 4) (fun _ => 0) (by norm_num) (by norm_num) (by norm_num)
    (by norm_num)
  simpa using h

/-- C8: in the non-collapse path every output particle is value-equal to some
input particle. -/
theorem resample_closure (particles : List Particle) (weights : List ℝ)
    (u0 : ℝ) (rng : ℕ → ℝ)
    (hlen : weights.length = particles.length) (hN : 0 < particles.length)
    (hsum : 0.01 ≤ weights.sum)
    (hu0 : 0 ≤ u0) (hu1 : u0 < 1 / (particles.length : ℝ)) :
    ∃ res, resample_particles particles weights u0 rng = some res ∧
      ∀ p ∈ res, p ∈ particles := by
  obtain ⟨res, h1, _, h3, _⟩ := resample_spec particles weights u0 rng hlen.le hN hsum hu0 hu1
  exact ⟨res, h1, h3⟩

/-- Witness for C8 at two particles with equal weights. -/
theorem resample_closure_witness :
    ∃ res, resample_particles [⟨1, 2, 3⟩, ⟨4, 5, 6⟩] [3 / 4, 1 / 4] (1 / 4) (fun _ => 0) =
        some res ∧ ∀ p ∈ res, p ∈ ([⟨1, 2, 3⟩, ⟨4, 5, 6⟩] : List Particle) := by
  have h := resample_closure [⟨1, 2, 3⟩, ⟨4, 5, 6⟩] [3 / 4, 1 / 4] (1 / 4) (fun _ => 0)
    (by norm_num) (by norm_num) (by norm_num) (by norm_num) (by norm_num)
  simpa using h

/-- Counterexample to C3: a weight vector of length 1 against a particle list
of length 2 whose sum is below the collapse threshold - the lengths differ,
yet the call returns normally (with a result sized to the weight vector). -/
theorem mismatch_returns_normally_cex :
    ([(0.001 : ℝ)].length ≠ ([⟨0, 0, 0⟩, ⟨1, 1, 1⟩] : List Particle).length) ∧
    (resample_particles [⟨0, 0, 0⟩, ⟨1, 1, 1⟩] [0.001] 0 (fun _ => 0)).isSome = true := by
  refine ⟨by norm_num, ?_⟩
  rw [resample_collapse _ _ _ _ (by norm_num)]
  rfl

/-- C3 amended: a weight/particle length mismatch is not detected as a fault
and the call can return normally. The collapse branch (weight sum below 0.01)
returns normally with one fresh particle per weight, whatever the length of
the particle list - longer, shorter, or empty. The non-collapse branch
returns normally with one output per particle, every output a copy of some
input particle, whenever the particle list is nonempty, the weight vector is
no longer than the particle list, and the offset draw is in [0, 1/N). -/
theorem mismatch_not_checked (particles : List Particle) (weights : List ℝ)
    (u0 : ℝ) (rng : ℕ → ℝ) :
    (weights.sum < 0.01 →
      ∃ res, resample_particles particles weights u0 rng = some res ∧
        res.length = weights.length) ∧
    (0.01 ≤ weights.sum → weights.length ≤ particles.length →
      0 < particles.length → 0 ≤ u0 → u0 < 1 / (particles.length : ℝ) →
      ∃ res, resample_particles particles weights u0 rng = some res ∧
        res.length = particles.length ∧ ∀ p ∈ res, p ∈ particles) := by
  constructor
  · intro h
    exact ⟨_, resample_collapse _ _ _ _ h, generate_particles_length _ _ _⟩
  · intro hsum hlen hN hu0 hu1
    obtain ⟨res, h1, h2, h3, _⟩ := resample_spec particles weights u0 rng hlen hN hsum hu0 hu1
    exact ⟨res, h1, h2, h3⟩

/-- Witness for the amended C3, exercising both mismatch directions: three
collapsed weights against one particle return normally with three fresh
particles, and one weight against two particles in the non-collapse path
returns normally with two outputs copied from the input. -/
theorem mismatch_not_checked_witness :
    (∃ res, resample_particles [⟨0, 0, 0⟩] [0.001, 0.002, 0.003] 0 (fun _ => 0) = some res ∧
      res.length = 3) ∧
    (∃ res, resample_particles [⟨0, 0, 0⟩, ⟨1, 1, 1⟩] [1] (1 / 4) (fun _ => 0) = some res ∧
      res.length = 2 ∧ ∀ p ∈ res, p ∈ ([⟨0, 0, 0⟩, ⟨1, 1, 1⟩] : List Particle)) := by
  constructor
  · have h := (mismatch_not_checked [⟨0, 0, 0⟩] [0.001, 0.002, 0.003] 0 (fun _ => 0)).1
      (by norm_num)
    simpa using h
  · have h := (mismatch_not_checked [⟨0, 0, 0⟩, ⟨1, 1, 1⟩] [1] (1 / 4) (fun _ => 0)).2
      (by norm_num) (by norm_num) (by norm_num) (by norm_num) (by norm_num)
    simpa using h

end ParticleFilter
